import Mathlib

/-
Verification of the sysdig libsinsp ingestion / state-reconstruction
pipeline against its specification.  The repository ships only the public
header `userspace/libsinsp/sinsp.h` (declarations and doc comments); the
behaviour of the inspector loop, parser, thread manager, FD table and
cycle writer is therefore modelled from the specification's own words and
the header's doc comments, as a shallow embedding: state records are Lean
structures, the per-call behaviour of each operation is an executable
function on them.
-/

namespace Sysdig

/-! ## FD descriptors and per-thread FD tables (spec §3, §4.3, §4.6) -/

/-- Type tag of an FD descriptor (spec §3: file, socket, other kinds). -/
inductive FdType where
  | tfile
  | tsocket
  | tother
deriving DecidableEq, Repr

/-- Modelled from the spec: an FD descriptor ("fd number (local to thread),
type tag, type-specific tuple (for files: path)", §3; fdinfo.cpp is not in
the source tree).  Only the fields the claims touch are carried. -/
structure FDDesc where
  ftype : FdType
  path : String
deriving DecidableEq, Repr

/-- An FD table is an association list from fd number to descriptor
(spec §4.3: per-thread map from fd number to FD descriptor). -/
abbrev FdTable := List (Nat × FDDesc)

/-- Modelled from the spec: FD table `get(fd)` (§4.3). -/
def fdtable_get (t : FdTable) (fd : Nat) : Option FDDesc :=
  (t.find? (fun p => p.1 == fd)).map Prod.snd

/-- Modelled from the spec: FD table `remove(fd)` (§4.3). -/
def fdtable_remove (t : FdTable) (fd : Nat) : FdTable :=
  t.filter (fun p => !(p.1 == fd))

/-- Modelled from the spec: FD table `add(fd, desc)`, which replaces the
descriptor if the fd is already present ("replace if present; old
descriptor discarded", §4.3). -/
def fdtable_add (t : FdTable) (fd : Nat) (d : FDDesc) : FdTable :=
  (fd, d) :: fdtable_remove t fd

/-- Modelled from the spec: the `open`/`openat`/`creat` exit transition of
the event parser, whose implementation (parser.cpp) is not in the source
tree: "on success, add an FD of type file with resolved absolute path; on
failure, no state change" (§4.6). -/
def process_open_exit (t : FdTable) (fd : Nat) (path : String) (success : Bool) : FdTable :=
  if success then fdtable_add t fd ⟨FdType.tfile, path⟩ else t

/-- Modelled from the spec: the `close` exit transition of the event
parser, whose implementation (parser.cpp) is not in the source tree:
"remove the FD on exit-success; on failure, leave it" (§4.6). -/
def process_close_exit (t : FdTable) (fd : Nat) (success : Bool) : FdTable :=
  if success then fdtable_remove t fd else t

/-! ## Cycle writer (spec §4.8) -/

/-- Modelled from the spec: the state of the cycle writer (cycle_writer.cpp
is not in the source tree).  `files` lists the sequence numbers of the dump
files currently existing on disk, oldest first; `seq` is the sequence
suffix the next rollover will use (§4.8). -/
structure CycleWriter where
  file_limit : Nat
  cycle : Bool
  files : List Nat
  seq : Nat
deriving DecidableEq, Repr

/-- Modelled from the spec: one rollover of the cycle writer: "On rollover,
the current file is closed and a new one is opened with a sequence suffix;
when `file_limit` is positive and `cycle` is true, the oldest file is
unlinked to keep count ≤ limit" (§4.8). -/
def rollover (w : CycleWriter) : CycleWriter :=
  let files1 := w.files ++ [w.seq]
  let files2 :=
    if w.cycle ∧ 0 < w.file_limit ∧ w.file_limit < files1.length then
      files1.tail
    else
      files1
  { w with files := files2, seq := w.seq + 1 }

/-- Iterated rollovers of the cycle writer. -/
def rollovers : Nat → CycleWriter → CycleWriter
  | 0, w => w
  | n + 1, w => rollovers n (rollover w)

/-! ## Thread records and the thread table (spec §3, §4.4) -/

/-- Modelled from the spec: a thread record (spec §3; threadinfo.cpp is not
in the source tree).  Only the fields the claims touch are carried: tid,
pid, executable name, last-access timestamp, and the owned FD table. -/
structure ThreadRecord where
  tid : Int
  pid : Int
  comm : String
  lastaccess_ts : Nat
  fdtable : FdTable
deriving DecidableEq, Repr

/-- Running minimum of the last-access timestamps of a list of thread
records, starting from `x`. -/
def min_la_from (x : Nat) : List ThreadRecord → Nat
  | [] => x
  | t :: rest => min_la_from (min x t.lastaccess_ts) rest

/-- Smallest last-access timestamp in a thread table (0 for the empty
table, which the eviction path never sees). -/
def min_lastaccess : List ThreadRecord → Nat
  | [] => 0
  | t :: rest => min_la_from t.lastaccess_ts rest

/-- Modelled from the spec: LRU-style eviction from the thread table
("violation triggers LRU-style eviction using last-access timestamp",
spec §3): the first record whose last-access timestamp attains the table
minimum is removed. -/
def evict_lru (ts : List ThreadRecord) : List ThreadRecord :=
  ts.eraseP (fun t => t.lastaccess_ts == min_lastaccess ts)

/-- Modelled from the spec: insertion of a record in the thread table; a
record with the same tid is displaced ("the incoming record displaces the
old one", spec §4.4 collision handling). -/
def thread_insert (ts : List ThreadRecord) (r : ThreadRecord) : List ThreadRecord :=
  r :: ts.filter (fun t => !(t.tid == r.tid))

/-- Modelled from the spec: `add(record)` of the thread manager
(spec §4.4) subject to the configured maximum table size
(`m_max_thread_table_size` in sinsp.h): when adding would exceed the
maximum, the least-recently-accessed record is evicted first. -/
def add_thread (maxsize : Nat) (ts : List ThreadRecord) (r : ThreadRecord) :
    List ThreadRecord :=
  if maxsize ≤ ts.length then thread_insert (evict_lru ts) r else thread_insert ts r

/-! ## Events, pull results and the inspector state (spec §3, §4.9) -/

/-- The event-type codes the claims exercise (spec §4.6); every remaining
type of the dispatch table is collapsed into `other`, which mutates no
state relevant to the claims. -/
inductive EvtType where
  | open_exit (fd : Nat) (path : String) (success : Bool)
  | close_exit (fd : Nat) (success : Bool)
  | exit_group
  | other
deriving DecidableEq, Repr

/-- A raw event as delivered by the capture source: timestamp, owning
thread id and decoded type (spec §6, raw event frame). -/
structure SourceEvent where
  ts : Nat
  tid : Int
  etype : EvtType
deriving DecidableEq, Repr

/-- Outcome of one pull from the capture source (spec §4.1:
`next() -> {Event | Timeout | Eof | Error}`). -/
inductive PullResult where
  | ev (e : SourceEvent)
  | timeout
  | eof
  | err
deriving DecidableEq, Repr

/-- Library-level error values (spec §7 taxonomy; only the one the claims
need is carried). -/
inductive SinspError where
  | ConfigLocked
deriving DecidableEq, Repr

/-- Result of one call to the inspector's `next` (sinsp.h:232 doc comment:
success, SCAP_TIMEOUT, SCAP_EOF or SCAP_FAILURE).  An accepted event
carries its monotonic event number; an event rejected by the filter is
returned with `filtered_out = true`. -/
inductive NextRes where
  | ok (num : Nat) (filtered_out : Bool) (e : SourceEvent)
  | timeout
  | eof
  | err
deriving DecidableEq, Repr

/-- Modelled from the spec: the reconstructed state owned by one inspector
instance (the private fields of class sinsp in sinsp.h; sinsp.cpp is not
in the source tree).  Field names follow the header: `threads` is the
thread table, `firstevent_ts` is m_firstevent_ts (None until the first
event), `tid_to_remove` / `fd_to_remove` are the deferred-removal slots
m_tid_to_remove / m_tid_of_fd_to_remove+m_fds_to_remove, `meta_evt_pending`
is m_meta_evt_pending, `nevts` is the processed-event counter behind
get_num_events, `last_tinfo` is the cached m_last_tinfo, and
`private_slots` is the private-state slot registry behind
reserve_thread_memory. -/
structure InspState where
  max_thread_table_size : Nat
  threads : List ThreadRecord
  lastevent_ts : Nat
  firstevent_ts : Option Nat
  tid_to_remove : Option Int
  fd_to_remove : Option (Int × Nat)
  meta_evt_pending : Bool
  meta_evt : SourceEvent
  nevts : Nat
  last_tinfo : Option Int
  capture_started : Bool
  private_slots : List Nat
deriving DecidableEq, Repr

/-- Modelled from the spec and the sinsp.h:620-627 doc comment:
`find_thread(tid, lookup_only)`.  With `lookup_only = false` the found
record's `m_lastaccess_ts` is set to the current event timestamp and
`m_last_tinfo` is cached; with `lookup_only = true` neither happens. -/
def find_thread (st : InspState) (tid : Int) (lookup_only : Bool) :
    Option ThreadRecord × InspState :=
  match st.threads.find? (fun t => t.tid == tid) with
  | none => (none, st)
  | some t =>
    if lookup_only then
      (some t, st)
    else
      (some { t with lastaccess_ts := st.lastevent_ts },
       { st with
           threads := st.threads.map (fun u =>
             if u.tid == tid then { u with lastaccess_ts := st.lastevent_ts } else u),
           last_tinfo := some tid })

/-- Modelled from the spec: step 2 of the per-iteration contract of `next`
(§4.9): "Process deferred removals from the previous iteration (thread
exit, FD close)". -/
def step2_removals (st : InspState) : InspState :=
  let threads1 :=
    match st.tid_to_remove with
    | none => st.threads
    | some tid => st.threads.filter (fun t => !(t.tid == tid))
  let threads2 :=
    match st.fd_to_remove with
    | none => threads1
    | some (tid, fd) =>
        threads1.map (fun t =>
          if t.tid == tid then { t with fdtable := fdtable_remove t.fdtable fd } else t)
  { st with threads := threads2, tid_to_remove := none, fd_to_remove := none }

/-- Minimal thread record synthesized when an event targets a thread not in
the table (spec §4.6 tie-breaks: "create a minimal record with only tid and
timestamp populated"). -/
def minimal_thread (e : SourceEvent) : ThreadRecord :=
  { tid := e.tid, pid := e.tid, comm := "", lastaccess_ts := e.ts, fdtable := [] }

/-- Modelled from the spec: step 4 of the per-iteration contract (§4.9):
"Bind the enriched slot to the raw event; resolve owning thread (creating
if necessary)".  Resolving for an arriving event refreshes the record's
last-access timestamp and the m_last_tinfo cache (sinsp.h:620-627). -/
def bind_thread (st : InspState) (e : SourceEvent) : InspState :=
  if st.threads.any (fun t => t.tid == e.tid) then
    { st with
        threads := st.threads.map (fun t =>
          if t.tid == e.tid then { t with lastaccess_ts := e.ts } else t),
        last_tinfo := some e.tid }
  else
    { st with
        threads := add_thread st.max_thread_table_size st.threads (minimal_thread e),
        last_tinfo := some e.tid }

/-- Modelled from the spec: step 5 of the per-iteration contract, the
event-parser dispatch (§4.6; parser.cpp is not in the source tree).
`open` exits mutate the owning thread's FD table immediately; a successful
`close` exit records the fd for deferred removal; `exit`/`exit_group`
marks the thread for deferred removal (§4.6, §4.9 step 2). -/
def parse_event (st : InspState) (e : SourceEvent) : InspState :=
  match e.etype with
  | EvtType.open_exit fd path success =>
      { st with threads := st.threads.map (fun t =>
          if t.tid == e.tid then
            { t with fdtable := process_open_exit t.fdtable fd path success }
          else t) }
  | EvtType.close_exit fd success =>
      if success then { st with fd_to_remove := some (e.tid, fd) } else st
  | EvtType.exit_group => { st with tid_to_remove := some e.tid }
  | EvtType.other => st

/-- Modelled from the spec: the filter gate "tracks first-event timestamp"
(§2 C7; §3: "First-event timestamp is recorded once and never
rewritten"). -/
def set_firstevent (st : InspState) (ts : Nat) : InspState :=
  { st with firstevent_ts :=
      match st.firstevent_ts with
      | none => some ts
      | some x => some x }

/-- Modelled from the spec: one call to `sinsp::next` (sinsp.h:232;
sinsp.cpp is not in the source tree), following the per-iteration contract
of §4.9: (1) a pending meta-event is bound and returned first; (2)
deferred removals from the previous iteration are processed; (3) a raw
event is pulled, and Timeout/Eof/Error are propagated; (4) the enriched
slot is bound and the owning thread resolved; (5) the parser dispatches;
(6) the filter gate runs, a rejected event being returned flagged
`filtered_out`.  The third component reports whether a raw event was
pulled from the capture source during the call. -/
def sinsp_next (filt : SourceEvent → Bool) (p : PullResult) (st : InspState) :
    NextRes × InspState × Bool :=
  if st.meta_evt_pending then
    (NextRes.ok (st.nevts + 1) false st.meta_evt,
     { st with meta_evt_pending := false, nevts := st.nevts + 1 }, false)
  else
    let st1 := step2_removals st
    match p with
    | PullResult.timeout => (NextRes.timeout, st1, true)
    | PullResult.eof => (NextRes.eof, st1, true)
    | PullResult.err => (NextRes.err, st1, true)
    | PullResult.ev e =>
        let st2 := set_firstevent { st1 with lastevent_ts := e.ts } e.ts
        let st3 := parse_event (bind_thread st2 e) e
        if filt e then
          (NextRes.ok (st3.nevts + 1) false e, { st3 with nevts := st3.nevts + 1 }, true)
        else
          (NextRes.ok st3.nevts true e, st3, true)

/-- Modelled from the spec: `reserve_thread_memory` (sinsp.h:594-599:
"Allocates private state in the thread info class.  Returns the ID to use
when retrieving the memory area.  Will fail if called after the capture
starts"; spec §5: failing means the `ConfigLocked` error and the slot
registry is left unchanged). -/
def reserve_thread_memory (st : InspState) (size : Nat) :
    Except SinspError Nat × InspState :=
  if st.capture_started then
    (Except.error SinspError.ConfigLocked, st)
  else
    (Except.ok st.private_slots.length,
     { st with private_slots := st.private_slots ++ [size] })

/-- A run of the inspector loop: successive calls to `sinsp_next`, one per
element of the pull-result list, returning the results in order together
with the final state. -/
def run (filt : SourceEvent → Bool) : List PullResult → InspState → List NextRes × InspState
  | [], st => ([], st)
  | p :: rest, st =>
      let r := sinsp_next filt p st
      let rr := run filt rest r.2.1
      (r.1 :: rr.1, rr.2)

/-- Event numbers of the accepted events of a run: the events returned
with `filtered_out = false` (spec §8: "accepted event"). -/
def accepted_nums (rs : List NextRes) : List Nat :=
  rs.filterMap (fun r =>
    match r with
    | NextRes.ok n false _ => some n
    | _ => none)

/-- The state reached after steps 2, 4 and 5 of one iteration of `next`
on a raw event `e`: deferred removals, thread binding, parser dispatch. -/
def after_parse (st : InspState) (e : SourceEvent) : InspState :=
  parse_event
    (bind_thread (set_firstevent { step2_removals st with lastevent_ts := e.ts } e.ts) e) e

/-! ## Concrete fixtures used by witnesses and counterexamples -/

/-- A filter accepting every event. -/
def filt_all : SourceEvent → Bool := fun _ => true

/-- A concrete raw event of inert type. -/
def ev_other : SourceEvent := { ts := 50, tid := 7, etype := EvtType.other }

/-- A concrete thread record with tid 7. -/
def thr7 : ThreadRecord := { tid := 7, pid := 7, comm := "sh", lastaccess_ts := 5, fdtable := [] }

/-- A quiescent inspector state: capture running, thread 7 in the table,
no deferred removals, no meta-event pending. -/
def st_clean : InspState :=
  { max_thread_table_size := 8
    threads := [thr7]
    lastevent_ts := 10
    firstevent_ts := some 3
    tid_to_remove := none
    fd_to_remove := none
    meta_evt_pending := false
    meta_evt := ev_other
    nevts := 0
    last_tinfo := none
    capture_started := true
    private_slots := [] }

/-- The quiescent state with a deferred thread removal (tid 7) pending
from the previous iteration. -/
def st_rm : InspState := { st_clean with tid_to_remove := some 7 }

/-- The quiescent state with a meta-event pending in the single
meta-slot. -/
def st_meta : InspState := { st_clean with meta_evt_pending := true }

/-- The quiescent state before the capture has been opened. -/
def st_preopen : InspState := { st_clean with capture_started := false }

/-- A thread record with a late last-access timestamp. -/
def thr_a : ThreadRecord := { tid := 1, pid := 1, comm := "a", lastaccess_ts := 10, fdtable := [] }

/-- A thread record with the earliest last-access timestamp. -/
def thr_b : ThreadRecord := { tid := 2, pid := 2, comm := "b", lastaccess_ts := 4, fdtable := [] }

/-- A two-record thread table, used at capacity maxsize = 2. -/
def ts_full : List ThreadRecord := [thr_a, thr_b]

/-- The fresh record whose arrival forces an eviction. -/
def rec_new : ThreadRecord := { tid := 3, pid := 3, comm := "c", lastaccess_ts := 20, fdtable := [] }

/-- A concrete exit_group event of thread 7. -/
def ev_exit7 : SourceEvent := { ts := 60, tid := 7, etype := EvtType.exit_group }

/-- A cycle writer at its file limit of 3. -/
def w_full : CycleWriter := { file_limit := 3, cycle := true, files := [0, 1, 2], seq := 3 }

/-- A one-entry FD table holding fd 3. -/
def tbl_fd3 : FdTable := [(3, { ftype := FdType.tfile, path := "/a" })]

/-! ## Helper lemmas -/

theorem fdtable_remove_add (t : FdTable) (fd : Nat) (d : FDDesc) :
    fdtable_remove (fdtable_add t fd d) fd = fdtable_remove t fd := by
  simp [fdtable_add, fdtable_remove, List.filter_filter]

theorem fdtable_remove_of_get_none (t : FdTable) (fd : Nat)
    (h : fdtable_get t fd = none) : fdtable_remove t fd = t := by
  rw [fdtable_remove, List.filter_eq_self]
  intro p hp
  have hfind : t.find? (fun p => p.1 == fd) = none := by
    unfold fdtable_get at h
    cases hf : t.find? (fun p => p.1 == fd) with
    | none => rfl
    | some q => rw [hf] at h; simp at h
  rw [List.find?_eq_none] at hfind
  simpa using hfind p hp

theorem min_la_from_le_init (l : List ThreadRecord) (x : Nat) : min_la_from x l ≤ x := by
  induction l generalizing x with
  | nil => simp [min_la_from]
  | cons t rest ih =>
    calc min_la_from (min x t.lastaccess_ts) rest ≤ min x t.lastaccess_ts := ih _
    _ ≤ x := Nat.min_le_left _ _

theorem min_la_from_le_mem (l : List ThreadRecord) (x : Nat) (t : ThreadRecord)
    (ht : t ∈ l) : min_la_from x l ≤ t.lastaccess_ts := by
  induction l generalizing x with
  | nil => cases ht
  | cons u rest ih =>
    rcases List.mem_cons.mp ht with h | h
    · subst h
      calc min_la_from (min x t.lastaccess_ts) rest ≤ min x t.lastaccess_ts :=
        min_la_from_le_init _ _
      _ ≤ t.lastaccess_ts := Nat.min_le_right _ _
    · exact ih _ h

theorem min_la_from_attained (l : List ThreadRecord) (x : Nat) :
    min_la_from x l = x ∨ ∃ t ∈ l, min_la_from x l = t.lastaccess_ts := by
  induction l generalizing x with
  | nil => exact Or.inl rfl
  | cons u rest ih =>
    rcases ih (min x u.lastaccess_ts) with h | ⟨t, ht, heq⟩
    · rcases Nat.le_total x u.lastaccess_ts with hle | hle
      · left
        simpa [min_la_from, Nat.min_eq_left hle] using h
      · right
        refine ⟨u, List.mem_cons_self _ _, ?_⟩
        simpa [min_la_from, Nat.min_eq_right hle] using h
    · exact Or.inr ⟨t, List.mem_cons_of_mem _ ht, heq⟩

theorem min_lastaccess_le (ts : List ThreadRecord) (t : ThreadRecord) (ht : t ∈ ts) :
    min_lastaccess ts ≤ t.lastaccess_ts := by
  cases ts with
  | nil => cases ht
  | cons u rest =>
    rcases List.mem_cons.mp ht with h | h
    · subst h
      exact min_la_from_le_init _ _
    · exact min_la_from_le_mem _ _ _ h

theorem min_lastaccess_attained (ts : List ThreadRecord) (hne : ts ≠ []) :
    ∃ t ∈ ts, t.lastaccess_ts = min_lastaccess ts := by
  cases ts with
  | nil => exact absurd rfl hne
  | cons u rest =>
    rcases min_la_from_attained rest u.lastaccess_ts with h | ⟨t, ht, heq⟩
    · exact ⟨u, List.mem_cons_self _ _, h.symm⟩
    · exact ⟨t, List.mem_cons_of_mem _ ht, heq.symm⟩

theorem evict_lru_length (ts : List ThreadRecord) (hne : ts ≠ []) :
    (evict_lru ts).length = ts.length - 1 := by
  obtain ⟨t, ht, heq⟩ := min_lastaccess_attained ts hne
  exact List.length_eraseP_of_mem ht (by simpa using heq)

theorem mem_eraseP_of_at_most_one {α : Type} (p : α → Bool) (l : List α)
    (hu : l.Pairwise (fun a b => ¬(p a = true ∧ p b = true))) (t : α) (ht : t ∈ l) :
    t ∈ l.eraseP p ↔ p t = false := by
  induction l with
  | nil => cases ht
  | cons a l ih =>
    rcases List.pairwise_cons.mp hu with ⟨ha, hl⟩
    by_cases hp : p a = true
    · rw [List.eraseP_cons_of_pos hp]
      rcases List.mem_cons.mp ht with h | h
      · subst h
        constructor
        · intro hmem
          exact absurd ⟨hp, hp⟩ (ha t hmem)
        · intro hf
          rw [hp] at hf
          cases hf
      · constructor
        · intro _
          by_contra hf
          exact ha t h ⟨hp, by simpa using hf⟩
        · intro _
          exact h
    · rw [List.eraseP_cons_of_neg (by simpa using hp)]
      by_cases hta : t = a
      · subst hta
        simp [List.mem_cons, Bool.eq_false_iff, hp]
      · rcases List.mem_cons.mp ht with h | h
        · exact absurd h hta
        · rw [List.mem_cons]
          rw [ih hl h]
          simp [hta]

theorem mem_evict_lru_iff (ts : List ThreadRecord)
    (hdist : ts.Pairwise (fun a b => a.lastaccess_ts ≠ b.lastaccess_ts))
    (t : ThreadRecord) (ht : t ∈ ts) :
    t ∈ evict_lru ts ↔ min_lastaccess ts < t.lastaccess_ts := by
  rw [evict_lru, mem_eraseP_of_at_most_one _ _ ?_ t ht]
  · have hle := min_lastaccess_le ts t ht
    constructor
    · intro h
      have : ¬ t.lastaccess_ts = min_lastaccess ts := by simpa using h
      omega
    · intro h
      simp only [beq_eq_false_iff_ne, ne_eq]
      omega
  · refine hdist.imp ?_
    intro a b hab ⟨hpa, hpb⟩
    rw [beq_iff_eq] at hpa hpb
    exact hab (hpa.trans hpb.symm)

theorem sinsp_next_meta (filt : SourceEvent → Bool) (p : PullResult) (st : InspState)
    (h : st.meta_evt_pending = true) :
    sinsp_next filt p st =
      (NextRes.ok (st.nevts + 1) false st.meta_evt,
       { st with meta_evt_pending := false, nevts := st.nevts + 1 }, false) := by
  unfold sinsp_next
  rw [if_pos h]

theorem sinsp_next_timeout (filt : SourceEvent → Bool) (st : InspState)
    (h : st.meta_evt_pending = false) :
    sinsp_next filt PullResult.timeout st = (NextRes.timeout, step2_removals st, true) := by
  unfold sinsp_next
  rw [if_neg (by simp [h])]

theorem sinsp_next_eof (filt : SourceEvent → Bool) (st : InspState)
    (h : st.meta_evt_pending = false) :
    sinsp_next filt PullResult.eof st = (NextRes.eof, step2_removals st, true) := by
  unfold sinsp_next
  rw [if_neg (by simp [h])]

theorem sinsp_next_err (filt : SourceEvent → Bool) (st : InspState)
    (h : st.meta_evt_pending = false) :
    sinsp_next filt PullResult.err st = (NextRes.err, step2_removals st, true) := by
  unfold sinsp_next
  rw [if_neg (by simp [h])]

theorem sinsp_next_ev (filt : SourceEvent → Bool) (e : SourceEvent) (st : InspState)
    (h : st.meta_evt_pending = false) :
    sinsp_next filt (PullResult.ev e) st =
      (if filt e then
        (NextRes.ok ((after_parse st e).nevts + 1) false e,
         { after_parse st e with nevts := (after_parse st e).nevts + 1 }, true)
      else
        (NextRes.ok (after_parse st e).nevts true e, after_parse st e, true)) := by
  unfold sinsp_next
  rw [if_neg (by simp [h])]
  rfl

theorem step2_removals_id (st : InspState) (h1 : st.tid_to_remove = none)
    (h2 : st.fd_to_remove = none) : step2_removals st = st := by
  obtain ⟨m, th, le, fe, tr, fr, mp, me, ne, lt, cs, ps⟩ := st
  have h1' : tr = none := h1
  have h2' : fr = none := h2
  subst h1'
  subst h2'
  rfl

theorem step2_removes_tid (st : InspState) (tid : Int)
    (h : st.tid_to_remove = some tid) :
    ∀ t ∈ (step2_removals st).threads, t.tid ≠ tid := by
  obtain ⟨m, th, le, fe, tr, fr, mp, me, ne, lt, cs, ps⟩ := st
  have h' : tr = some tid := h
  subst h'
  cases fr with
  | none =>
    intro t ht
    have ht' : t ∈ th.filter (fun u => !(u.tid == tid)) := ht
    have := List.of_mem_filter ht'
    simpa using this
  | some pr =>
    obtain ⟨tidf, fd⟩ := pr
    intro t ht
    have ht' : t ∈ (th.filter (fun u => !(u.tid == tid))).map (fun u =>
        if u.tid == tidf then { u with fdtable := fdtable_remove u.fdtable fd } else u) := ht
    rw [List.mem_map] at ht'
    obtain ⟨u, hu, huf⟩ := ht'
    have htid : t.tid = u.tid := by
      rw [← huf]
      by_cases hc : (u.tid == tidf) = true
      · simp [hc]
      · simp [hc]
    have := List.of_mem_filter hu
    rw [htid]
    simpa using this

theorem bind_thread_mem_tid (st : InspState) (e : SourceEvent)
    (h : ∃ t ∈ st.threads, t.tid = e.tid) :
    ∃ t ∈ (bind_thread st e).threads, t.tid = e.tid := by
  obtain ⟨t, ht, heq⟩ := h
  have hany : st.threads.any (fun t => t.tid == e.tid) = true := by
    rw [List.any_eq_true]
    exact ⟨t, ht, by simpa using heq⟩
  unfold bind_thread
  rw [if_pos hany]
  exact ⟨_, List.mem_map_of_mem
    (fun u => if u.tid == e.tid then { u with lastaccess_ts := e.ts } else u) ht,
    by simp [heq]⟩

theorem set_firstevent_some (st : InspState) (ts x : Nat)
    (h : st.firstevent_ts = some x) : (set_firstevent st ts).firstevent_ts = some x := by
  simp [set_firstevent, h]

theorem bind_thread_nevts (st : InspState) (e : SourceEvent) :
    (bind_thread st e).nevts = st.nevts := by
  unfold bind_thread
  split <;> rfl

theorem bind_thread_meta_flag (st : InspState) (e : SourceEvent) :
    (bind_thread st e).meta_evt_pending = st.meta_evt_pending := by
  unfold bind_thread
  split <;> rfl

theorem bind_thread_firstevent (st : InspState) (e : SourceEvent) :
    (bind_thread st e).firstevent_ts = st.firstevent_ts := by
  unfold bind_thread
  split <;> rfl

theorem parse_event_nevts (st : InspState) (e : SourceEvent) :
    (parse_event st e).nevts = st.nevts := by
  unfold parse_event
  split
  · rfl
  · split <;> rfl
  · rfl
  · rfl

theorem parse_event_meta_flag (st : InspState) (e : SourceEvent) :
    (parse_event st e).meta_evt_pending = st.meta_evt_pending := by
  unfold parse_event
  split
  · rfl
  · split <;> rfl
  · rfl
  · rfl

theorem parse_event_firstevent (st : InspState) (e : SourceEvent) :
    (parse_event st e).firstevent_ts = st.firstevent_ts := by
  unfold parse_event
  split
  · rfl
  · split <;> rfl
  · rfl
  · rfl

theorem after_parse_nevts (st : InspState) (e : SourceEvent) :
    (after_parse st e).nevts = st.nevts := by
  rw [after_parse, parse_event_nevts, bind_thread_nevts]
  rfl

theorem after_parse_meta_flag (st : InspState) (e : SourceEvent) :
    (after_parse st e).meta_evt_pending = st.meta_evt_pending := by
  rw [after_parse, parse_event_meta_flag, bind_thread_meta_flag]
  rfl

theorem after_parse_firstevent (st : InspState) (e : SourceEvent) (x : Nat)
    (h : st.firstevent_ts = some x) :
    (after_parse st e).firstevent_ts = some x := by
  rw [after_parse, parse_event_firstevent, bind_thread_firstevent]
  exact set_firstevent_some _ _ _ h

theorem accepted_nums_cons_ok (n : Nat) (e : SourceEvent) (l : List NextRes) :
    accepted_nums (NextRes.ok n false e :: l) = n :: accepted_nums l := rfl

theorem accepted_nums_cons_skip (r : NextRes) (l : List NextRes)
    (h : ∀ n e, r ≠ NextRes.ok n false e) :
    accepted_nums (r :: l) = accepted_nums l := by
  cases r with
  | ok n f e =>
    cases f with
    | false => exact absurd rfl (h n e)
    | true => rfl
  | timeout => rfl
  | eof => rfl
  | err => rfl

theorem sinsp_next_num (filt : SourceEvent → Bool) (p : PullResult) (st : InspState)
    (hmeta : st.meta_evt_pending = false) :
    (sinsp_next filt p st).2.1.meta_evt_pending = false ∧
    ((∃ e, (sinsp_next filt p st).1 = NextRes.ok (st.nevts + 1) false e ∧
           (sinsp_next filt p st).2.1.nevts = st.nevts + 1) ∨
     ((sinsp_next filt p st).2.1.nevts = st.nevts ∧
      ∀ n e, (sinsp_next filt p st).1 ≠ NextRes.ok n false e)) := by
  cases p with
  | timeout =>
    rw [sinsp_next_timeout filt st hmeta]
    exact ⟨hmeta, Or.inr ⟨rfl, by intro n e hx; cases hx⟩⟩
  | eof =>
    rw [sinsp_next_eof filt st hmeta]
    exact ⟨hmeta, Or.inr ⟨rfl, by intro n e hx; cases hx⟩⟩
  | err =>
    rw [sinsp_next_err filt st hmeta]
    exact ⟨hmeta, Or.inr ⟨rfl, by intro n e hx; cases hx⟩⟩
  | ev e =>
    rw [sinsp_next_ev filt e st hmeta]
    by_cases hf : filt e = true
    · rw [if_pos hf]
      refine ⟨?_, Or.inl ⟨e, ?_, ?_⟩⟩
      · show (after_parse st e).meta_evt_pending = false
        rw [after_parse_meta_flag]
        exact hmeta
      · show NextRes.ok ((after_parse st e).nevts + 1) false e = NextRes.ok (st.nevts + 1) false e
        rw [after_parse_nevts]
      · show (after_parse st e).nevts + 1 = st.nevts + 1
        rw [after_parse_nevts]
    · rw [if_neg hf]
      refine ⟨?_, Or.inr ⟨?_, ?_⟩⟩
      · show (after_parse st e).meta_evt_pending = false
        rw [after_parse_meta_flag]
        exact hmeta
      · exact after_parse_nevts st e
      · intro n e' hx
        cases hx

theorem sinsp_next_preserves_firstevent (filt : SourceEvent → Bool) (p : PullResult)
    (st : InspState) (x : Nat) (h : st.firstevent_ts = some x) :
    (sinsp_next filt p st).2.1.firstevent_ts = some x := by
  by_cases hm : st.meta_evt_pending = true
  · rw [sinsp_next_meta filt p st hm]
    exact h
  · have hm' : st.meta_evt_pending = false := by simpa using hm
    cases p with
    | timeout =>
      rw [sinsp_next_timeout filt st hm']
      exact h
    | eof =>
      rw [sinsp_next_eof filt st hm']
      exact h
    | err =>
      rw [sinsp_next_err filt st hm']
      exact h
    | ev e =>
      rw [sinsp_next_ev filt e st hm']
      by_cases hf : filt e = true
      · rw [if_pos hf]
        show (after_parse st e).firstevent_ts = some x
        exact after_parse_firstevent st e x h
      · rw [if_neg hf]
        show (after_parse st e).firstevent_ts = some x
        exact after_parse_firstevent st e x h

theorem rollover_file_limit (w : CycleWriter) : (rollover w).file_limit = w.file_limit := rfl

theorem rollover_cycle (w : CycleWriter) : (rollover w).cycle = w.cycle := rfl

theorem rollover_count_le (w : CycleWriter) (hc : w.cycle = true)
    (hl : 0 < w.file_limit) (h : w.files.length ≤ w.file_limit) :
    (rollover w).files.length ≤ w.file_limit := by
  by_cases hfull : w.file_limit < w.files.length + 1
  · simp only [rollover, hc, hl, List.length_append, List.length_cons, List.length_nil,
      hfull, and_true, true_and, if_true, reduceIte]
    simp [List.length_tail]
    omega
  · simp only [rollover, List.length_append, List.length_cons, List.length_nil]
    have : ¬(w.cycle = true ∧ 0 < w.file_limit ∧ w.file_limit < w.files.length + 1) := by
      intro hx
      exact hfull hx.2.2
    simp only [hc, hl, true_and] at this ⊢
    rw [if_neg (by omega)]
    simp
    omega

theorem rollovers_count_le (n : Nat) (w : CycleWriter) (hc : w.cycle = true)
    (hl : 0 < w.file_limit) (h : w.files.length ≤ w.file_limit) :
    (rollovers n w).files.length ≤ w.file_limit := by
  induction n generalizing w with
  | zero => exact h
  | succ n ih =>
    have h1 := rollover_count_le w hc hl h
    have h2 := ih (rollover w) (by rw [rollover_cycle]; exact hc)
      (by rw [rollover_file_limit]; exact hl) (by rw [rollover_file_limit]; exact h1)
    rw [rollover_file_limit] at h2
    exact h2

/-! ## Claims -/

/-- Claim C1 counterexample: with a deferred thread removal pending from
the previous iteration, a Timeout pull outcome is propagated to the caller
but the reconstructed state is mutated (the marked thread is removed at
step 2 before the pull), so "propagates that same outcome ... without
mutating the reconstructed state" is false as stated. -/
theorem next_timeout_mutation_cex :
    (sinsp_next filt_all PullResult.timeout st_rm).1 = NextRes.timeout ∧
    (sinsp_next filt_all PullResult.timeout st_rm).2.1 ≠ st_rm := by
  decide

/-- Claim C1 (amended): every call to next returns exactly one of a bound
event, Timeout, Eof or Error; when no meta-event is pending, a
Timeout/Eof/Error pull outcome is propagated unchanged to the caller, the
only state change of such a call being the processing of the deferred
removals left by the previous iteration — in particular, with no deferred
removal pending the reconstructed state is returned unchanged. -/
theorem next_propagates_pull_outcome (filt : SourceEvent → Bool) (st : InspState)
    (h : st.meta_evt_pending = false) :
    (∀ p : PullResult,
      (∃ n f e, (sinsp_next filt p st).1 = NextRes.ok n f e) ∨
      (sinsp_next filt p st).1 = NextRes.timeout ∨
      (sinsp_next filt p st).1 = NextRes.eof ∨
      (sinsp_next filt p st).1 = NextRes.err) ∧
    sinsp_next filt PullResult.timeout st = (NextRes.timeout, step2_removals st, true) ∧
    sinsp_next filt PullResult.eof st = (NextRes.eof, step2_removals st, true) ∧
    sinsp_next filt PullResult.err st = (NextRes.err, step2_removals st, true) ∧
    (st.tid_to_remove = none → st.fd_to_remove = none → step2_removals st = st) := by
  refine ⟨?_, sinsp_next_timeout filt st h, sinsp_next_eof filt st h,
    sinsp_next_err filt st h, step2_removals_id st⟩
  intro p
  cases p with
  | ev e =>
    left
    rw [sinsp_next_ev filt e st h]
    by_cases hf : filt e = true
    · rw [if_pos hf]
      exact ⟨_, _, _, rfl⟩
    · rw [if_neg hf]
      exact ⟨_, _, _, rfl⟩
  | timeout =>
    rw [sinsp_next_timeout filt st h]
    right
    left
    rfl
  | eof =>
    rw [sinsp_next_eof filt st h]
    right
    right
    left
    rfl
  | err =>
    rw [sinsp_next_err filt st h]
    right
    right
    right
    rfl

/-- Witness for C1 at a concrete quiescent state: Eof is propagated and
the state comes back unchanged. -/
theorem next_propagates_pull_outcome_witness :
    sinsp_next filt_all PullResult.eof st_clean = (NextRes.eof, step2_removals st_clean, true) ∧
    step2_removals st_clean = st_clean :=
  ⟨(next_propagates_pull_outcome filt_all st_clean rfl).2.2.1,
   (next_propagates_pull_outcome filt_all st_clean rfl).2.2.2.2 rfl rfl⟩

/-- Claim C2: adding a record never pushes the thread table beyond the
configured maximum, and when the table is at capacity the new record
displaces exactly the record with the smallest last-access timestamp: with
a fresh tid and pairwise-distinct timestamps, a resident record survives
the addition iff its last-access timestamp is strictly above the table
minimum. -/
theorem thread_table_lru_eviction (maxsize : Nat) (ts : List ThreadRecord)
    (r : ThreadRecord) (hpos : 0 < maxsize) (hle : ts.length ≤ maxsize)
    (hfresh : ∀ t ∈ ts, t.tid ≠ r.tid)
    (hdist : ts.Pairwise (fun a b => a.lastaccess_ts ≠ b.lastaccess_ts)) :
    (add_thread maxsize ts r).length ≤ maxsize ∧
    (ts.length = maxsize →
      r ∈ add_thread maxsize ts r ∧
      ∀ t ∈ ts, (t ∈ add_thread maxsize ts r ↔ min_lastaccess ts < t.lastaccess_ts)) := by
  have hkeep : ∀ l : List ThreadRecord, (∀ t ∈ l, t.tid ≠ r.tid) →
      l.filter (fun t => !(t.tid == r.tid)) = l := by
    intro l hl
    rw [List.filter_eq_self]
    intro t ht
    simpa using hl t ht
  constructor
  · by_cases hcap : maxsize ≤ ts.length
    · have hfull : ts.length = maxsize := le_antisymm hle hcap
      have hne : ts ≠ [] := by
        intro hnil
        rw [hnil] at hfull
        simp at hfull
        omega
      rw [add_thread, if_pos hcap, thread_insert]
      have hf1 : ((evict_lru ts).filter (fun t => !(t.tid == r.tid))).length ≤
          (evict_lru ts).length := List.length_filter_le _ _
      have hf2 := evict_lru_length ts hne
      simp only [List.length_cons]
      omega
    · rw [add_thread, if_neg hcap, thread_insert]
      have hf1 : (ts.filter (fun t => !(t.tid == r.tid))).length ≤ ts.length :=
        List.length_filter_le _ _
      simp only [List.length_cons]
      omega
  · intro hfull
    have hcap : maxsize ≤ ts.length := le_of_eq hfull.symm
    have hsub : ∀ t ∈ evict_lru ts, t ∈ ts := fun t ht => List.mem_of_mem_eraseP ht
    have heq : add_thread maxsize ts r = r :: evict_lru ts := by
      rw [add_thread, if_pos hcap, thread_insert,
        hkeep _ (fun t ht => hfresh t (hsub t ht))]
    constructor
    · rw [heq]
      exact List.mem_cons_self _ _
    · intro t ht
      have hne_r : t ≠ r := by
        intro hx
        exact hfresh t ht (by rw [hx])
      rw [heq, List.mem_cons, or_iff_right hne_r, mem_evict_lru_iff ts hdist t ht]

/-- Witness for C2 at a full two-record table: the capacity bound holds,
the fresh record is inserted, and the record with the larger last-access
timestamp survives while (per the iff) the minimal one is evicted. -/
theorem thread_table_lru_eviction_witness :
    (add_thread 2 ts_full rec_new).length ≤ 2 ∧
    rec_new ∈ add_thread 2 ts_full rec_new ∧
    ∀ t ∈ ts_full, (t ∈ add_thread 2 ts_full rec_new ↔
      min_lastaccess ts_full < t.lastaccess_ts) :=
  ⟨(thread_table_lru_eviction 2 ts_full rec_new (by decide) (by decide)
      (by decide) (by decide)).1,
   ((thread_table_lru_eviction 2 ts_full rec_new (by decide) (by decide)
      (by decide) (by decide)).2 rfl).1,
   ((thread_table_lru_eviction 2 ts_full rec_new (by decide) (by decide)
      (by decide) (by decide)).2 rfl).2⟩

/-- Claim C3: the first-event timestamp is written at most once: once it
holds a value, any further run of the inspector loop leaves it
unchanged. -/
theorem firstevent_ts_written_once (filt : SourceEvent → Bool)
    (pulls : List PullResult) (st : InspState) (x : Nat)
    (h : st.firstevent_ts = some x) :
    (run filt pulls st).2.firstevent_ts = some x := by
  induction pulls generalizing st with
  | nil => exact h
  | cons p rest ih =>
    simp only [run]
    exact ih _ (sinsp_next_preserves_firstevent filt p st x h)

/-- Witness for C3: a set first-event timestamp survives a concrete
two-pull run. -/
theorem firstevent_ts_written_once_witness :
    (run filt_all [PullResult.ev ev_other, PullResult.eof] st_clean).2.firstevent_ts =
      some 3 :=
  firstevent_ts_written_once filt_all [PullResult.ev ev_other, PullResult.eof]
    st_clean 3 rfl

/-- Claim C4 counterexample: when the fd is already present before the
open, the open replaces the old descriptor (spec §4.3 add semantics) and
the close removes the fd, so the table after the close is not the table
before the open: the round-trip fails as stated. -/
theorem open_close_roundtrip_cex :
    process_close_exit
        (process_open_exit [(5, { ftype := FdType.tfile, path := "/old" })] 5 "/new" true)
        5 true
      ≠ [(5, { ftype := FdType.tfile, path := "/old" })] := by
  decide

/-- Claim C4 (amended): for an fd not already present in the thread's FD
table, a successful open exit followed by a successful close exit with no
intervening event on that fd restores the FD table exactly; a failed open
adds nothing and a failed close removes nothing. -/
theorem open_close_roundtrip (tbl : FdTable) (fd : Nat) (path : String)
    (h : fdtable_get tbl fd = none) :
    process_close_exit (process_open_exit tbl fd path true) fd true = tbl ∧
    process_open_exit tbl fd path false = tbl ∧
    process_close_exit tbl fd false = tbl := by
  refine ⟨?_, rfl, rfl⟩
  show fdtable_remove (fdtable_add tbl fd ⟨FdType.tfile, path⟩) fd = tbl
  rw [fdtable_remove_add, fdtable_remove_of_get_none tbl fd h]

/-- Witness for C4 on a concrete table without fd 5: open then close of
fd 5 restores the table, and the failed variants change nothing. -/
theorem open_close_roundtrip_witness :
    process_close_exit (process_open_exit tbl_fd3 5 "/tmp/x" true) 5 true = tbl_fd3 ∧
    process_open_exit tbl_fd3 5 "/tmp/x" false = tbl_fd3 ∧
    process_close_exit tbl_fd3 5 false = tbl_fd3 :=
  open_close_roundtrip tbl_fd3 5 "/tmp/x" (by decide)

/-- Claim C5: while the single meta-event slot is pending, next binds and
returns the meta-event, clears the pending flag, and does not pull a raw
event from the capture source (the pulled flag is false). -/
theorem meta_event_returned_first (filt : SourceEvent → Bool) (p : PullResult)
    (st : InspState) (h : st.meta_evt_pending = true) :
    sinsp_next filt p st =
      (NextRes.ok (st.nevts + 1) false st.meta_evt,
       { st with meta_evt_pending := false, nevts := st.nevts + 1 }, false) :=
  sinsp_next_meta filt p st h

/-- Witness for C5 at a concrete state with a pending meta-event. -/
theorem meta_event_returned_first_witness :
    sinsp_next filt_all PullResult.timeout st_meta =
      (NextRes.ok 1 false ev_other,
       { st_meta with meta_evt_pending := false, nevts := 1 }, false) :=
  meta_event_returned_first filt_all PullResult.timeout st_meta rfl

/-- Claim C6: the record of a thread issuing exit/exit_group is not
removed while its exit event is returned: next returns the bound exit
event with the thread still in the table, the tid is only recorded in the
deferred-removal slot, and the deferred-removal step that starts the
following next() call removes it. -/
theorem exit_deferred_removal (filt : SourceEvent → Bool) (st : InspState)
    (e : SourceEvent)
    (hmeta : st.meta_evt_pending = false)
    (h1 : st.tid_to_remove = none) (h2 : st.fd_to_remove = none)
    (hty : e.etype = EvtType.exit_group)
    (hthr : ∃ t ∈ st.threads, t.tid = e.tid) :
    (∃ n f, (sinsp_next filt (PullResult.ev e) st).1 = NextRes.ok n f e) ∧
    (∃ t ∈ (sinsp_next filt (PullResult.ev e) st).2.1.threads, t.tid = e.tid) ∧
    (sinsp_next filt (PullResult.ev e) st).2.1.tid_to_remove = some e.tid ∧
    (∀ t ∈ (step2_removals (sinsp_next filt (PullResult.ev e) st).2.1).threads,
      t.tid ≠ e.tid) := by
  have hparse : ∀ s : InspState, parse_event s e = { s with tid_to_remove := some e.tid } := by
    intro s
    unfold parse_event
    rw [hty]
  have hid : step2_removals st = st := step2_removals_id st h1 h2
  have hap_tid : (after_parse st e).tid_to_remove = some e.tid := by
    unfold after_parse
    rw [hparse]
  have hmem : ∃ t ∈ (after_parse st e).threads, t.tid = e.tid := by
    unfold after_parse
    rw [hparse]
    show ∃ t ∈ (bind_thread
        (set_firstevent { step2_removals st with lastevent_ts := e.ts } e.ts) e).threads,
      t.tid = e.tid
    apply bind_thread_mem_tid
    show ∃ t ∈ (step2_removals st).threads, t.tid = e.tid
    rw [hid]
    exact hthr
  rw [sinsp_next_ev filt e st hmeta]
  by_cases hf : filt e = true
  · rw [if_pos hf]
    exact ⟨⟨(after_parse st e).nevts + 1, false, rfl⟩, hmem, hap_tid,
      step2_removes_tid _ e.tid hap_tid⟩
  · rw [if_neg hf]
    exact ⟨⟨(after_parse st e).nevts, true, rfl⟩, hmem, hap_tid,
      step2_removes_tid _ e.tid hap_tid⟩

/-- Witness for C6: thread 7's exit_group event at a concrete quiescent
state: the event is returned, the record survives the call, the tid is
marked, and the following deferred-removal step drops it. -/
theorem exit_deferred_removal_witness :
    (∃ n f, (sinsp_next filt_all (PullResult.ev ev_exit7) st_clean).1 =
      NextRes.ok n f ev_exit7) ∧
    (∃ t ∈ (sinsp_next filt_all (PullResult.ev ev_exit7) st_clean).2.1.threads,
      t.tid = ev_exit7.tid) ∧
    (sinsp_next filt_all (PullResult.ev ev_exit7) st_clean).2.1.tid_to_remove =
      some ev_exit7.tid ∧
    (∀ t ∈ (step2_removals
        (sinsp_next filt_all (PullResult.ev ev_exit7) st_clean).2.1).threads,
      t.tid ≠ ev_exit7.tid) :=
  exit_deferred_removal filt_all st_clean ev_exit7 rfl rfl rfl rfl
    ⟨thr7, by decide, rfl⟩

/-- Claim C7: reserve_thread_memory succeeds with the next slot id while
the capture has not started, and once the capture has started it fails
with ConfigLocked and returns the inspector state — in particular the slot
registry — unchanged. -/
theorem reserve_thread_memory_spec (st : InspState) (size : Nat) :
    (st.capture_started = false →
      reserve_thread_memory st size =
        (Except.ok st.private_slots.length,
         { st with private_slots := st.private_slots ++ [size] })) ∧
    (st.capture_started = true →
      reserve_thread_memory st size = (Except.error SinspError.ConfigLocked, st)) := by
  constructor
  · intro h
    simp [reserve_thread_memory, h]
  · intro h
    simp [reserve_thread_memory, h]

/-- Witness for C7: before open the reservation succeeds with slot id 0;
after the capture has started it fails with ConfigLocked and the state is
unchanged. -/
theorem reserve_thread_memory_spec_witness :
    reserve_thread_memory st_preopen 16 =
      (Except.ok st_preopen.private_slots.length,
       { st_preopen with private_slots := st_preopen.private_slots ++ [16] }) ∧
    reserve_thread_memory st_clean 16 = (Except.error SinspError.ConfigLocked, st_clean) :=
  ⟨(reserve_thread_memory_spec st_preopen 16).1 rfl,
   (reserve_thread_memory_spec st_clean 16).2 rfl⟩

/-- Claim C8: with cycle enabled and a positive file limit, a dump-file
set within the limit stays within the limit across any number of
rollovers, and a rollover at the limit unlinks exactly the oldest file
while appending the newly opened one. -/
theorem cycle_writer_file_limit (w : CycleWriter) (n : Nat) (hc : w.cycle = true)
    (hl : 0 < w.file_limit) (h : w.files.length ≤ w.file_limit) :
    (rollovers n w).files.length ≤ w.file_limit ∧
    (w.files.length = w.file_limit →
      (rollover w).files = w.files.tail ++ [w.seq]) := by
  refine ⟨rollovers_count_le n w hc hl h, ?_⟩
  intro hfull
  have hcond : w.cycle = true ∧ 0 < w.file_limit ∧
      w.file_limit < (w.files ++ [w.seq]).length := by
    refine ⟨hc, hl, ?_⟩
    simp only [List.length_append, List.length_cons, List.length_nil]
    omega
  show (if w.cycle ∧ 0 < w.file_limit ∧ w.file_limit < (w.files ++ [w.seq]).length
      then (w.files ++ [w.seq]).tail else w.files ++ [w.seq]) = w.files.tail ++ [w.seq]
  rw [if_pos hcond]
  cases hw : w.files with
  | nil =>
    rw [hw] at hfull
    simp at hfull
    omega
  | cons a l => simp

/-- Witness for C8: a writer at its limit of 3 stays within the limit over
5 rollovers, and one rollover drops the oldest file 0 and adds file 3. -/
theorem cycle_writer_file_limit_witness :
    (rollovers 5 w_full).files.length ≤ w_full.file_limit ∧
    (rollover w_full).files = w_full.files.tail ++ [w_full.seq] :=
  ⟨(cycle_writer_file_limit w_full 5 rfl (by decide) (by decide)).1,
   (cycle_writer_file_limit w_full 5 rfl (by decide) (by decide)).2 rfl⟩

/-- Claim C9: within a capture (no meta-event pending), the accepted
events of any run are numbered consecutively from the successor of the
current event counter — so event numbers are strictly monotonic and each
accepted event's number is its predecessor's plus one. -/
theorem event_numbers_consecutive (filt : SourceEvent → Bool)
    (pulls : List PullResult) (st : InspState)
    (hmeta : st.meta_evt_pending = false) :
    accepted_nums (run filt pulls st).1 =
      List.range' (st.nevts + 1) (accepted_nums (run filt pulls st).1).length ∧
    (accepted_nums (run filt pulls st).1).Pairwise (· < ·) := by
  have main : ∀ (ps : List PullResult) (s : InspState), s.meta_evt_pending = false →
      accepted_nums (run filt ps s).1 =
        List.range' (s.nevts + 1) (accepted_nums (run filt ps s).1).length := by
    intro ps
    induction ps with
    | nil =>
      intro s _
      rfl
    | cons p rest ih =>
      intro s hs
      obtain ⟨hm, hcase⟩ := sinsp_next_num filt p s hs
      simp only [run]
      rcases hcase with ⟨e, hres, hnev⟩ | ⟨hnev, hnotok⟩
      · rw [hres, accepted_nums_cons_ok]
        have ha := ih (sinsp_next filt p s).2.1 hm
        rw [hnev] at ha
        rw [ha, List.length_cons, List.length_range', List.range'_succ]
      · rw [accepted_nums_cons_skip _ _ hnotok]
        have ha := ih (sinsp_next filt p s).2.1 hm
        rw [hnev] at ha
        exact ha
  refine ⟨main pulls st hmeta, ?_⟩
  rw [main pulls st hmeta]
  exact List.pairwise_lt_range' _ _

/-- Witness for C9: a concrete two-pull run from a fresh counter produces
accepted numbers 1, 2, ... with the range' shape and strict
monotonicity. -/
theorem event_numbers_consecutive_witness :
    accepted_nums (run filt_all [PullResult.ev ev_other, PullResult.eof] st_clean).1 =
      List.range' 1
        (accepted_nums (run filt_all [PullResult.ev ev_other, PullResult.eof] st_clean).1).length ∧
    (accepted_nums (run filt_all [PullResult.ev ev_other, PullResult.eof] st_clean).1).Pairwise
      (· < ·) :=
  event_numbers_consecutive filt_all [PullResult.ev ev_other, PullResult.eof] st_clean rfl

/-- Claim C10: for a tid present in the thread table, find_thread with
lookup_only = true returns the record (the same thread — same tid — as the
non-lookup find) while leaving the inspector state, in particular every
record's last-access timestamp and the cached last-thread pointer,
unchanged; the non-lookup find, by contrast, caches the tid. -/
theorem find_thread_lookup_only_pure (st : InspState) (tid : Int)
    (h : ∃ t ∈ st.threads, t.tid = tid) :
    (find_thread st tid true).2 = st ∧
    (find_thread st tid true).1.isSome = true ∧
    Option.map ThreadRecord.tid (find_thread st tid true).1 =
      Option.map ThreadRecord.tid (find_thread st tid false).1 ∧
    (find_thread st tid false).2.last_tinfo = some tid := by
  obtain ⟨t, ht, heq⟩ := h
  have hsome : (st.threads.find? (fun u => u.tid == tid)).isSome = true := by
    rw [List.find?_isSome]
    exact ⟨t, ht, by simpa using heq⟩
  obtain ⟨t0, hf⟩ := Option.isSome_iff_exists.mp hsome
  unfold find_thread
  rw [hf]
  simp

/-- Witness for C10 at the concrete state holding thread 7. -/
theorem find_thread_lookup_only_pure_witness :
    (find_thread st_clean 7 true).2 = st_clean ∧
    (find_thread st_clean 7 true).1.isSome = true ∧
    Option.map ThreadRecord.tid (find_thread st_clean 7 true).1 =
      Option.map ThreadRecord.tid (find_thread st_clean 7 false).1 ∧
    (find_thread st_clean 7 false).2.last_tinfo = some 7 :=
  find_thread_lookup_only_pure st_clean 7 ⟨thr7, by decide, rfl⟩

end Sysdig
